import Mathlib

/-!
Verification of the streaming analysis orchestration subsystem of a
text-analysis web application.

The development shallowly embeds the relevant TypeScript code:

* `StreamingService` (server/services/streaming-service.ts): the broadcast
  registry (`streamAnalysis`, `stopStreaming`, `stopAnalysis`,
  `broadcastToStream`), the server-side word-based truncation
  (`truncateToPercentage`), the batch partitioner (`createBatches`),
  and the orchestration pipeline (`processAnalysis`, `streamSummary`,
  `processBatch`, `streamDelay`, the per-variant batch loops).
* `LLMService.streamResponse` (server/services/llm-service.ts): the
  SSE line parser (buffering of incomplete lines, the DONE sentinel,
  skipping of malformed frames).
* `DatabaseStorage.checkUserCredits` / `consumeUserCredits`
  (storage layer) and the credit/tier resolution step of
  `processAnalysis`.
* the client-side character-based truncation
  (client/src/utils/user-credits.ts, `truncateToPercentage`).

Strings are modelled as `List Char`.  Mutable registry/storage state is
threaded explicitly through a `World` record; events delivered to
subscriber callbacks are accumulated in an ordered log.  Machine
floating point expressions of the form `Math.floor(n * (p / 100))` are
modelled by exact rational floors (`n * p / 100` in `Nat`).
-/

namespace StreamingApp

/-- Whitespace test modelling the JavaScript regex class `\s`
(restricted to the ASCII whitespace characters). -/
def isWsChar (c : Char) : Bool :=
  c == ' ' || c == '\t' || c == '\n' || c == '\r' || c == '\x0b' || c == '\x0c'

/-- Single pass implementing JavaScript `text.split(/\s+/)`.
`afterWs` records whether the previous character belonged to a
whitespace run (maximal runs act as one separator); `cur` is the
current word accumulated in reverse. -/
def splitWsF : List Char → Bool → List Char → List (List Char)
  | [], _, cur => [cur.reverse]
  | c :: rest, afterWs, cur =>
    if isWsChar c then
      if afterWs then splitWsF rest true cur
      else cur.reverse :: splitWsF rest true []
    else splitWsF rest false (c :: cur)

/-- JavaScript `text.split(/\s+/)`: splits on maximal whitespace runs,
keeping an empty first (resp. last) element when the text starts
(resp. ends) with whitespace, and returning `[""]` on empty input. -/
def jsSplitWs (s : List Char) : List (List Char) :=
  splitWsF s false []

/-- Number of elements of the JavaScript split, i.e.
`text.split(/\s+/).length` — the quantity the source's word-based
truncation computes its target from. -/
def wordCount (text : List Char) : Nat :=
  (jsSplitWs text).length

/-- JavaScript `String.prototype.trim()`: removes leading and trailing
whitespace. -/
def jsTrimChars (s : List Char) : List Char :=
  ((s.dropWhile isWsChar).reverse.dropWhile isWsChar).reverse

/-- Server-side freemium truncation,
`StreamingService.truncateToPercentage`:
splits on whitespace, keeps `max 1 ⌊words.length * percentage / 100⌋`
words, rejoins with single spaces and appends `"..."` when the result
is shorter than the input. -/
def truncateToPercentage (text : List Char) (percentage : Nat) : List Char :=
  if 100 ≤ percentage then text
  else
    let words := jsSplitWs text
    let targetLength := words.length * percentage / 100
    let truncated := List.intercalate [' '] (words.take (max 1 targetLength))
    truncated ++ (if truncated.length < text.length then ['.', '.', '.'] else [])

/-- Word part of the server-side truncation before the optional
ellipsis: the first `max 1 ⌊wordCount * p / 100⌋` split elements,
rejoined with single spaces. -/
def truncatedWords (text : List Char) (percentage : Nat) : List Char :=
  List.intercalate [' '] ((jsSplitWs text).take (max 1 (wordCount text * percentage / 100)))

/-- Structural invariant of a JavaScript whitespace split: only the
first and last element may be empty. -/
def innersNonempty : List (List Char) → Prop
  | [] => True
  | [_] => True
  | _ :: x :: xs => (x ≠ [] ∨ xs = []) ∧ innersNonempty (x :: xs)

/-- Fuelled version of `StreamingService.createBatches`' slicing loop
(`for (i = 0; i < items.length; i += batchSize) push(slice(i, i+batchSize))`).
The fuel is only needed to make the recursion structural; it is always
called with fuel `items.length`, which suffices since every iteration
consumes at least one element when `batchSize > 0`. -/
def createBatchesGo {α : Type} : Nat → List α → Nat → List (List α)
  | 0, _, _ => []
  | _ + 1, [], _ => []
  | fuel + 1, x :: xs, batchSize =>
    (x :: xs).take batchSize :: createBatchesGo fuel ((x :: xs).drop batchSize) batchSize

/-- `StreamingService.createBatches`: partitions `items` into
consecutive slices of `batchSize` (the last slice may be shorter).
The source loop does not terminate for `batchSize = 0` (never used);
the model returns `[]` in that case. -/
def createBatches {α : Type} (items : List α) (batchSize : Nat) : List (List α) :=
  if batchSize = 0 then [] else createBatchesGo items.length items batchSize

namespace UserCredits

/-- Sentence-ending digraphs searched for by the client-side
truncation. -/
def sentenceEndings : List (List Char) :=
  [['.', ' '], ['.', '\n'], ['!', ' '], ['!', '\n'], ['?', ' '], ['?', '\n']]

/-- First sentence ending (in list order) matching at position `i`,
i.e. `text.substring(i, i + ending.length) === ending`; returns the
adjusted cut point `i + ending.length`. -/
def endingCutAt (text : List Char) (i : Nat) : Option Nat :=
  sentenceEndings.findSome? fun e =>
    if (text.drop i).take e.length = e then some (i + e.length) else none

/-- Downward scan of the client truncation's sentence-boundary loop:
`for (i = targetLength; i >= max(0, targetLength - 100); i--)`.
A match whose adjusted cut point equals `targetLength` does not stop
the scan (the source's outer `break` tests `cutPoint !== targetLength`). -/
def searchCut (text : List Char) (targetLength : Nat) : Nat → Nat → Nat
  | 0, _ => targetLength
  | fuel + 1, i =>
    match endingCutAt text i with
    | some cp => if cp = targetLength then searchCut text targetLength fuel (i - 1) else cp
    | none => searchCut text targetLength fuel (i - 1)

/-- Word-boundary fallback:
`while (cutPoint > 0 && text[cutPoint] !== ' ') cutPoint--`
(out-of-range indexing reads `undefined`, which is not a space). -/
def wordCut (text : List Char) : Nat → Nat
  | 0 => 0
  | cp + 1 => if text.get? (cp + 1) = some ' ' then cp + 1 else wordCut text cp

/-- Client-side display truncation (`truncateToPercentage` in
client/src/utils/user-credits.ts): cuts at
`⌊text.length * percentage / 100⌋` characters, adjusted backwards to a
nearby sentence ending (searching at most 100 positions back) or, failing
that, to a word boundary, then trims the result. -/
def truncateToPercentage (text : List Char) (percentage : Nat) : List Char :=
  if 100 ≤ percentage then text
  else
    let targetLength := text.length * percentage / 100
    let lo := targetLength - 100
    let cp := searchCut text targetLength (targetLength - lo + 1) targetLength
    let cp2 := if cp = targetLength then wordCut text targetLength else cp
    jsTrimChars (text.take cp2)

end UserCredits

/-- User record as read by the storage layer's credit methods
(`credits` is a nullable integer column). -/
structure User where
  username : String
  credits : Option Int
deriving DecidableEq

/-- JavaScript `String.prototype.toLowerCase()` (per character). -/
def jsToLower (s : String) : String :=
  String.mk (s.data.map Char.toLower)

/-- Hardcoded admin bypass used by both credit methods:
`user.username.toLowerCase() === 'jmkuczynski'`. -/
def isAdminUser (u : User) : Bool :=
  jsToLower u.username == "jmkuczynski"

/-- Stored credit balance as the source reads it: `user.credits || 0`. -/
def creditBalance (u : User) : Int :=
  u.credits.getD 0

/-- `DatabaseStorage.checkUserCredits`: `false` when the user record is
absent; always `true` for the admin identity; otherwise compares the
stored balance with the requirement. -/
def checkUserCredits (user : Option User) (requiredCredits : Int) : Bool :=
  match user with
  | none => false
  | some u => if isAdminUser u then true else decide (requiredCredits ≤ creditBalance u)

/-- `DatabaseStorage.consumeUserCredits` on an existing user: a no-op
for the admin identity, otherwise stores
`Math.max(0, (credits || 0) - creditsUsed)`. -/
def consumeUserCredits (u : User) (creditsUsed : Int) : User :=
  if isAdminUser u then u
  else { u with credits := some (max 0 (creditBalance u - creditsUsed)) }

/-- `StreamingService.getRequiredCredits`: fixed per-kind credit cost
table with default 2000. -/
def getRequiredCredits (analysisType : String) : Nat :=
  if analysisType = "cognitive" then 2000
  else if analysisType = "comprehensive-cognitive" then 5000
  else if analysisType = "microcognitive" then 500
  else if analysisType = "psychological" then 1500
  else if analysisType = "comprehensive-psychological" then 4000
  else if analysisType = "micropsychological" then 400
  else if analysisType = "psychopathological" then 1500
  else if analysisType = "comprehensive-psychopathological" then 4000
  else if analysisType = "micropsychopathological" then 400
  else 2000

/-- Credit/tier resolution step of `StreamingService.processAnalysis`
(lines 97–112): with no owning user the tier is always the 30% preview;
with an owning user, a successful `checkUserCredits` triggers
`consumeUserCredits` and grants full access.  The per-id user lookup is
abstracted by passing the (optional) owning user's record directly. -/
def resolveAccess (user : Option User) (userId : Option Nat) (analysisType : String) :
    Bool × Option User :=
  match userId with
  | none => (false, user)
  | some _ =>
    let requiredCredits : Int := getRequiredCredits analysisType
    if checkUserCredits user requiredCredits then
      (true, user.map fun u => consumeUserCredits u requiredCredits)
    else (false, user)

/-- Terminal/intermediate failures raised inside the orchestration
pipeline.  The source carries them as `Error` messages; the model keeps
them symbolic (`batchFailed n` stands for
`"Batch n processing failed: No content received from LLM..."`, etc.). -/
inductive Err
  | summaryFailed
  | batchFailed (batchNumber : Nat)
  | stoppedByUser
  | resultsNotSaved
deriving DecidableEq

/-- Persisted `results` payload: either the success shape
`{summary, batches, questions, type, completedAt}` or the error shape
`{error, failedAt, type}` written by the catch handler.  Timestamps are
not modelled. -/
inductive ResultsPayload
  | success (summary : List Char) (batches : List (List Char))
      (questions : List String) (analysisType : String)
  | failure (errorMessage : Err) (analysisType : String)
deriving DecidableEq

/-- Closed set of events broadcast to subscribers.  Timestamps are not
modelled; the `error` event carries the symbolic failure. -/
inductive StreamEvent
  | summary (content : List Char)
  | raw_stream (batchNumber : Nat) (rawContent : List Char)
  | batch_complete (batchNumber : Nat) (finalRawResponse : List Char)
  | delay (progress : Nat)
  | complete
  | stopped (message : String)
  | errorEvent (error : Err)
deriving DecidableEq

/-- One entry of the `activeStreams` map: subscriber callbacks
(identified by abstract numeric handles) plus the active flag. -/
structure Channel where
  callbacks : List Nat
  isActive : Bool
deriving DecidableEq

/-- Persisted state of the one analysis job under consideration: its
lifecycle status, its nullable results payload, and the (optional)
record of its owning user. -/
structure StorageState where
  status : String
  results : Option ResultsPayload
  user : Option User
deriving DecidableEq

/-- Fields of the analysis record that the orchestration logic reads.
Prompt-related fields (text content, context, provider) only feed the
provider call, which the model abstracts by the increment lists, so
they are omitted. -/
structure Analysis where
  id : String
  atype : String
  userId : Option Nat

/-- Explicit state threaded through the orchestration: the
`activeStreams` registry (a map from job id to channel), the storage
row of the job, and the ordered log of `(callback, event)` deliveries
made so far. -/
structure World where
  streams : String → Option Channel
  storage : StorageState
  delivered : List (Nat × StreamEvent)

/-- Pointwise update of the registry map. -/
def updateStream (m : String → Option Channel) (analysisId : String) (ch : Channel) :
    String → Option Channel :=
  fun x => if x = analysisId then some ch else m x

/-- Deletion from the registry map. -/
def removeStream (m : String → Option Channel) (analysisId : String) :
    String → Option Channel :=
  fun x => if x = analysisId then none else m x

/-- Deliveries produced by one `broadcastToStream` call: every attached
callback receives the event when the channel exists and is active,
nobody otherwise.  Callback exceptions are isolated in the source
(caught per callback), so delivery to each callback is unconditional. -/
def broadcastDeliveries (m : String → Option Channel) (analysisId : String)
    (e : StreamEvent) : List (Nat × StreamEvent) :=
  match m analysisId with
  | some ch => if ch.isActive then ch.callbacks.map fun cb => (cb, e) else []
  | none => []

/-- `StreamingService.broadcastToStream`: appends the deliveries of this
emit to the log; registry and storage are untouched. -/
def broadcastToStream (w : World) (analysisId : String) (e : StreamEvent) : World :=
  { w with delivered := w.delivered ++ broadcastDeliveries w.streams analysisId e }

/-- `StreamingService.streamAnalysis` (subscribe): creates the channel
as active when absent, then adds the callback. -/
def streamAnalysis (w : World) (analysisId : String) (cb : Nat) : World :=
  match w.streams analysisId with
  | none =>
    { w with streams := updateStream w.streams analysisId (Channel.mk [cb] true) }
  | some ch =>
    let ch2 := Channel.mk (ch.callbacks ++ [cb]) ch.isActive
    { w with streams := updateStream w.streams analysisId ch2 }

/-- `StreamingService.stopStreaming`: when the channel exists it is
deactivated, cleared and removed (net effect: removal); no event is
emitted. -/
def stopStreaming (w : World) (analysisId : String) : World :=
  match w.streams analysisId with
  | none => w
  | some _ => { w with streams := removeStream w.streams analysisId }

/-- `StreamingService.stopAnalysis`: when the channel exists, the
source first sets `isActive = false` on the channel object held in the
map, then calls `broadcastToStream` with a `stopped` event, then clears
the callbacks and deletes the entry.  The broadcast therefore observes
the already-inactive channel. -/
def stopAnalysis (w : World) (analysisId : String) : World :=
  match w.streams analysisId with
  | none => w
  | some ch =>
    let w1 : World :=
      { w with streams := updateStream w.streams analysisId (Channel.mk ch.callbacks false) }
    let w2 := broadcastToStream w1 analysisId (StreamEvent.stopped "Analysis stopped by user")
    { w2 with streams := removeStream w2.streams analysisId }

/-- Channel-liveness checkpoint of the batch loops:
`!currentStream || !currentStream.isActive` negated. -/
def streamActive (w : World) (analysisId : String) : Bool :=
  match w.streams analysisId with
  | some ch => ch.isActive
  | none => false

/-- Outgoing representation of accumulated content:
`hasFullAccess ? content : truncateToPercentage(content, 30)`. -/
def displayContent (hasFullAccess : Bool) (content : List Char) : List Char :=
  if hasFullAccess then content else truncateToPercentage content 30

/-- `DatabaseStorage.updateAnalysisStatus` as seen from the
orchestrator. -/
def updateAnalysisStatus (w : World) (status : String) : World :=
  { w with storage := { w.storage with status := status } }

/-- `DatabaseStorage.updateAnalysisResults` as seen from the
orchestrator.  `writeOk` models a storage layer that may silently drop
the write — the possibility the source's post-run verification
defensively re-checks for. -/
def updateAnalysisResults (w : World) (payload : ResultsPayload) (writeOk : Bool) : World :=
  if writeOk then { w with storage := { w.storage with results := some payload } } else w

/-- Per-increment body of `streamSummary`: append the increment to the
accumulator and broadcast a `summary` event carrying the (possibly
truncated) accumulated snapshot. -/
def streamSummaryGo (analysisId : String) (hasFullAccess : Bool) :
    World → List Char → List (List Char) → World × List Char
  | w, acc, [] => (w, acc)
  | w, acc, chunk :: rest =>
    let acc2 := acc ++ chunk
    let w2 := broadcastToStream w analysisId
      (StreamEvent.summary (displayContent hasFullAccess acc2))
    streamSummaryGo analysisId hasFullAccess w2 acc2 rest

/-- `StreamingService.streamSummary`: streams the summary increments,
then fails when no increment was ever received. -/
def streamSummary (w : World) (a : Analysis) (hasFullAccess : Bool)
    (chunks : List (List Char)) : World × Except Err (List Char) :=
  let g := streamSummaryGo a.id hasFullAccess w [] chunks
  if chunks.isEmpty then (g.1, Except.error Err.summaryFailed)
  else (g.1, Except.ok g.2)

/-- Per-increment body of `processBatch`: append and broadcast a
`raw_stream` event with the (possibly truncated) accumulated snapshot. -/
def processBatchGo (analysisId : String) (batchNumber : Nat) (hasFullAccess : Bool) :
    World → List Char → List (List Char) → World × List Char
  | w, acc, [] => (w, acc)
  | w, acc, chunk :: rest =>
    let acc2 := acc ++ chunk
    let w2 := broadcastToStream w analysisId
      (StreamEvent.raw_stream batchNumber (displayContent hasFullAccess acc2))
    processBatchGo analysisId batchNumber hasFullAccess w2 acc2 rest

/-- `StreamingService.processBatch`: streams one batch, fails if no
increment arrived, otherwise broadcasts `batch_complete` with the
truncated-for-display final response and returns the untruncated full
response. -/
def processBatch (w : World) (a : Analysis) (batchNumber : Nat) (hasFullAccess : Bool)
    (chunks : List (List Char)) : World × Except Err (List Char) :=
  let g := processBatchGo a.id batchNumber hasFullAccess w [] chunks
  if chunks.isEmpty then (g.1, Except.error (Err.batchFailed batchNumber))
  else
    let w2 := broadcastToStream g.1 a.id
      (StreamEvent.batch_complete batchNumber (displayContent hasFullAccess g.2))
    (w2, Except.ok g.2)

/-- `StreamingService.streamDelay`: `steps = delayMs / 100` ticks plus
one (the loop is `0 ≤ step ≤ steps`), each broadcasting a `delay` event
with progress `Math.round(step / steps * 100)`. -/
def streamDelay (w : World) (analysisId : String) (delayMs : Nat) : World :=
  let steps := delayMs / 100
  (List.range (steps + 1)).foldl
    (fun w step =>
      broadcastToStream w analysisId (StreamEvent.delay ((200 * step + steps) / (2 * steps))))
    w

/-- `StreamingService.processBatchesWithResults` (the batch loop shared
by the eight non-plain variants): checkpoint before each batch and
again before the inter-batch delay; a failed checkpoint throws
`"Analysis stopped by user"`.  The provider increments of batch `i+1`
are `batchChunks[i]`. -/
def processBatchesWithResults (a : Analysis) (hasFullAccess : Bool) :
    World → Nat → List (List (List Char)) → World × Except Err (List (List Char))
  | w, _, [] => (w, Except.ok [])
  | w, i, chunks :: rest =>
    if streamActive w a.id then
      let b := processBatch w a (i + 1) hasFullAccess chunks
      match b.2 with
      | Except.error e => (b.1, Except.error e)
      | Except.ok fullResponse =>
        if streamActive b.1 a.id then
          let w2 := if rest.isEmpty then b.1 else streamDelay b.1 a.id 10000
          let r := processBatchesWithResults a hasFullAccess w2 (i + 1) rest
          match r.2 with
          | Except.error e => (r.1, Except.error e)
          | Except.ok results => (r.1, Except.ok (fullResponse :: results))
        else (b.1, Except.error Err.stoppedByUser)
    else (w, Except.error Err.stoppedByUser)

/-- Batch loop of the plain cognitive variant
(`processCognitiveAnalysis`, lines 187–211): identical structure, but a
failed checkpoint returns early (`.ok none`) instead of throwing, and
the accumulated batch results are discarded in that case. -/
def processCognitiveBatches (a : Analysis) (hasFullAccess : Bool) :
    World → Nat → List (List (List Char)) → World × Except Err (Option (List (List Char)))
  | w, _, [] => (w, Except.ok (some []))
  | w, i, chunks :: rest =>
    if streamActive w a.id then
      let b := processBatch w a (i + 1) hasFullAccess chunks
      match b.2 with
      | Except.error e => (b.1, Except.error e)
      | Except.ok fullResponse =>
        if streamActive b.1 a.id then
          let w2 := if rest.isEmpty then b.1 else streamDelay b.1 a.id 10000
          let r := processCognitiveBatches a hasFullAccess w2 (i + 1) rest
          match r.2 with
          | Except.error e => (r.1, Except.error e)
          | Except.ok none => (r.1, Except.ok none)
          | Except.ok (some results) => (r.1, Except.ok (some (fullResponse :: results)))
        else (b.1, Except.ok none)
    else (w, Except.ok none)

/-- One `processXxxAnalysis` variant body: summary phase, batch phase,
then persistence of the full untruncated results.  `variantThrows`
selects between the shared throwing loop (eight variants) and the plain
cognitive early-return loop.  `stopAfterSummary` models a user
`stopAnalysis` call arriving at the suspension point between the
summary phase and the batch loop. -/
def runVariant (a : Analysis) (hasFullAccess variantThrows : Bool) (w : World)
    (summaryChunks : List (List Char)) (batchChunks : List (List (List Char)))
    (questions : List String) (stopAfterSummary writeOk : Bool) :
    World × Except Err Unit :=
  let s := streamSummary w a hasFullAccess summaryChunks
  match s.2 with
  | Except.error e => (s.1, Except.error e)
  | Except.ok summary =>
    let w2 := if stopAfterSummary then stopAnalysis s.1 a.id else s.1
    if variantThrows then
      let b := processBatchesWithResults a hasFullAccess w2 0 batchChunks
      match b.2 with
      | Except.error e => (b.1, Except.error e)
      | Except.ok batchResults =>
        (updateAnalysisResults b.1
          (ResultsPayload.success summary batchResults questions a.atype) writeOk,
         Except.ok ())
    else
      let b := processCognitiveBatches a hasFullAccess w2 0 batchChunks
      match b.2 with
      | Except.error e => (b.1, Except.error e)
      | Except.ok none => (b.1, Except.ok ())
      | Except.ok (some batchResults) =>
        (updateAnalysisResults b.1
          (ResultsPayload.success summary batchResults questions a.atype) writeOk,
         Except.ok ())

/-- Catch handler of `processAnalysis`: write status `error`, overwrite
the results field with the error payload, re-raise. -/
def handleFailure (w : World) (a : Analysis) (e : Err) (writeOk : Bool) :
    World × Except Err Unit :=
  let w1 := updateAnalysisStatus w "error"
  let w2 := updateAnalysisResults w1 (ResultsPayload.failure e a.atype) writeOk
  (w2, Except.error e)

/-- Tail of `processAnalysis` after the variant dispatch (lines
150–175): on failure take the catch path; on success re-read the job,
fail with the persistence-verification error when the results field is
still null, otherwise write status `completed` and broadcast
`complete`. -/
def finishAnalysis (w3 : World) (a : Analysis) (r : Except Err Unit) (writeOk : Bool) :
    World × Except Err Unit :=
  match r with
  | Except.error e => handleFailure w3 a e writeOk
  | Except.ok _ =>
    if w3.storage.results = none then handleFailure w3 a Err.resultsNotSaved writeOk
    else
      let w4 := updateAnalysisStatus w3 "completed"
      (broadcastToStream w4 a.id StreamEvent.complete, Except.ok ())

/-- `StreamingService.processAnalysis`: resolve tier and consume
credits, set status `streaming`, run the variant, then verify the
persisted results are non-null before writing status `completed` and
broadcasting `complete`; any failure (including the verification) takes
the catch path. -/
def processAnalysis (w0 : World) (a : Analysis) (summaryChunks : List (List Char))
    (batchChunks : List (List (List Char))) (questions : List String)
    (variantThrows stopAfterSummary writeOk : Bool) : World × Except Err Unit :=
  let hu := resolveAccess w0.storage.user a.userId a.atype
  let w1 : World := { w0 with storage := { w0.storage with user := hu.2 } }
  let w2 := updateAnalysisStatus w1 "streaming"
  let rv := runVariant a hu.1 variantThrows w2 summaryChunks batchChunks questions
      stopAfterSummary writeOk
  finishAnalysis rv.1 a rv.2 writeOk

/-- `StreamingService.startAnalysis`: fire-and-forget launch whose
`.catch` broadcasts an `error` event with the failure message. -/
def startAnalysis (w0 : World) (a : Analysis) (summaryChunks : List (List Char))
    (batchChunks : List (List (List Char))) (questions : List String)
    (variantThrows stopAfterSummary writeOk : Bool) : World :=
  let p := processAnalysis w0 a summaryChunks batchChunks questions
      variantThrows stopAfterSummary writeOk
  match p.2 with
  | Except.ok _ => p.1
  | Except.error e => broadcastToStream p.1 a.id (StreamEvent.errorEvent e)

/-- JavaScript `buffer.split('\n')`. -/
def splitNl : List Char → List (List Char)
  | [] => [[]]
  | c :: rest =>
    if c = '\n' then [] :: splitNl rest
    else
      match splitNl rest with
      | [] => [[c]]
      | l :: ls => (c :: l) :: ls

/-- Literal `"data: "` line marker. -/
def dataMarker : List Char := ['d', 'a', 't', 'a', ':', ' ']

/-- Literal `"[DONE]"` end-of-stream sentinel. -/
def doneMarker : List Char := ['[', 'D', 'O', 'N', 'E', ']']

/-- Per-line processing of `LLMService.streamResponse`: lines not
starting with `"data: "` are ignored; `[DONE]` (after trimming) ends
the stream; otherwise the payload is parsed and, when it yields
(truthy) content, the content is emitted.  `parse` abstracts
`JSON.parse` composed with `extractContentFromResponse` and the
truthiness test: `none` covers both a `JSON.parse` failure (caught, the
loop continues) and an event carrying no content — the two behave
identically (skip the line, continue).  Returns the emitted increments
and whether the DONE sentinel was reached. -/
def processDataLines (parse : List Char → Option (List Char)) :
    List (List Char) → List (List Char) × Bool
  | [] => ([], false)
  | line :: rest =>
    if line.take 6 = dataMarker then
      let data := jsTrimChars (line.drop 6)
      if data = doneMarker then ([], true)
      else
        match parse data with
        | some content =>
          let r := processDataLines parse rest
          (content :: r.1, r.2)
        | none => processDataLines parse rest
    else processDataLines parse rest

/-- Chunk loop of `LLMService.streamResponse`: each network chunk is
appended to the line buffer, complete lines are processed, and the
trailing incomplete line is carried over; when the reader is exhausted
the leftover buffer is discarded (as in the source). -/
def streamLoop (parse : List Char → Option (List Char)) :
    List (List Char) → List Char → List (List Char)
  | [], _ => []
  | chunk :: rest, buffer =>
    let parts := splitNl (buffer ++ chunk)
    let r := processDataLines parse parts.dropLast
    if r.2 then r.1 else r.1 ++ streamLoop parse rest (parts.getLastD [])

/-- `LLMService.streamResponse` reduced to its increment sequence: the
increments decoded, in order, from the wire chunks. -/
def streamResponse (parse : List Char → Option (List Char))
    (chunks : List (List Char)) : List (List Char) :=
  streamLoop parse chunks []

/-- Terminal events per the spec: `complete`, `stopped`, `error`. -/
def isTerminalEvent : StreamEvent → Bool
  | StreamEvent.complete => true
  | StreamEvent.stopped _ => true
  | StreamEvent.errorEvent _ => true
  | _ => false

/-- Registry with one channel for job `"job1"`, active, with one
attached subscriber callback (handle 0). -/
def exampleStreams : String → Option Channel :=
  fun x => if x = "job1" then some (Channel.mk [0] true) else none

/-- Freshly created job: status `pending`, no results, anonymous. -/
def exampleWorld : World :=
  World.mk exampleStreams (StorageState.mk "pending" none none) []

/-- Analysis record of a variant using the shared throwing batch loop. -/
def exampleAnalysis : Analysis :=
  Analysis.mk "job1" "comprehensive-cognitive" none

/-- Analysis record of the plain cognitive variant. -/
def exampleCognitive : Analysis :=
  Analysis.mk "job1" "cognitive" none

/-! ### Registry lemmas -/

theorem broadcastToStream_streams (w : World) (analysisId : String) (e : StreamEvent) :
    (broadcastToStream w analysisId e).streams = w.streams := rfl

theorem broadcastToStream_storage (w : World) (analysisId : String) (e : StreamEvent) :
    (broadcastToStream w analysisId e).storage = w.storage := rfl

theorem stopAnalysis_delivered (w : World) (analysisId : String) :
    (stopAnalysis w analysisId).delivered = w.delivered := by
  unfold stopAnalysis
  cases h : w.streams analysisId with
  | none => rfl
  | some ch =>
    simp [broadcastToStream, broadcastDeliveries, updateStream]

theorem stopAnalysis_storage (w : World) (analysisId : String) :
    (stopAnalysis w analysisId).storage = w.storage := by
  unfold stopAnalysis
  cases h : w.streams analysisId with
  | none => rfl
  | some ch => rfl

theorem stopAnalysis_streams_self (w : World) (analysisId : String) :
    (stopAnalysis w analysisId).streams analysisId = none := by
  unfold stopAnalysis
  cases h : w.streams analysisId with
  | none => exact h
  | some ch => simp [broadcastToStream, removeStream]

theorem streamActive_stopAnalysis (w : World) (analysisId : String) :
    streamActive (stopAnalysis w analysisId) analysisId = false := by
  unfold streamActive
  rw [stopAnalysis_streams_self]

/-! ### Claim C1 -/

/-- Claim C1 (code bug): the claim states that `stopAnalysis` delivers
exactly one `stopped` event to each currently attached subscriber
before clearing the channel.  In the code, `stream.isActive` is set to
`false` on the very channel object that `broadcastToStream` then
re-reads and gates on, so the broadcast is a no-op: `stopAnalysis`
never delivers any event, and it removes the registry entry. -/
theorem stopAnalysis_delivers_no_stopped_event (w : World) (analysisId : String) :
    (stopAnalysis w analysisId).delivered = w.delivered ∧
    (stopAnalysis w analysisId).streams analysisId = none :=
  ⟨stopAnalysis_delivered w analysisId, stopAnalysis_streams_self w analysisId⟩

/-! ### Claims C5 and C10 (credit gate) -/

/-- Claim C5: tier resolution and credit consumption.  A non-admin user
with balance below the kind's cost gets the 30% tier with no deduction;
with balance at or above the cost gets full access and a deduction of
exactly the cost; the admin identity always gets full access with no
deduction. -/
theorem credit_gate_resolution (u : User) (analysisType : String) (uid : Nat) :
    (isAdminUser u = false → creditBalance u < (getRequiredCredits analysisType : Int) →
      resolveAccess (some u) (some uid) analysisType = (false, some u)) ∧
    (isAdminUser u = false → (getRequiredCredits analysisType : Int) ≤ creditBalance u →
      resolveAccess (some u) (some uid) analysisType =
        (true,
         some (User.mk u.username
           (some (creditBalance u - getRequiredCredits analysisType))))) ∧
    (isAdminUser u = true →
      resolveAccess (some u) (some uid) analysisType = (true, some u)) := by
  refine ⟨fun hadm hlt => ?_, fun hadm hge => ?_, fun hadm => ?_⟩
  · simp [resolveAccess, checkUserCredits, hadm, not_le.mpr hlt]
  · simp [resolveAccess, checkUserCredits, hadm, hge, consumeUserCredits,
      max_eq_right (sub_nonneg.mpr hge)]
  · simp [resolveAccess, checkUserCredits, hadm, consumeUserCredits]

/-- Witness for C5 at three concrete users: a poor non-admin user, a
rich non-admin user, and the admin identity with a tiny balance. -/
theorem credit_gate_resolution_witness :
    resolveAccess (some (User.mk "alice" (some 100))) (some 1) "cognitive" =
      (false, some (User.mk "alice" (some 100))) ∧
    resolveAccess (some (User.mk "bob" (some 2500))) (some 1) "cognitive" =
      (true, some (User.mk "bob" (some 500))) ∧
    resolveAccess (some (User.mk "JMKuczynski" (some 7))) (some 1) "cognitive" =
      (true, some (User.mk "JMKuczynski" (some 7))) := by
  refine ⟨?_, ?_, ?_⟩
  · exact (credit_gate_resolution (User.mk "alice" (some 100)) "cognitive" 1).1
      (by decide) (by decide)
  · have h := (credit_gate_resolution (User.mk "bob" (some 2500)) "cognitive" 1).2.1
      (by decide) (by decide)
    rw [h]; decide
  · exact (credit_gate_resolution (User.mk "JMKuczynski" (some 7)) "cognitive" 1).2.2
      (by decide)

/-- Claim C10: for an existing non-admin user, `consumeUserCredits`
stores `max 0 (previous balance − amount)`; in particular the stored
balance is never negative, even when the amount exceeds the balance. -/
theorem consume_credits_clamps_at_zero (u : User) (creditsUsed : Int)
    (hadm : isAdminUser u = false) :
    creditBalance (consumeUserCredits u creditsUsed) =
      max 0 (creditBalance u - creditsUsed) ∧
    0 ≤ creditBalance (consumeUserCredits u creditsUsed) := by
  constructor
  · simp [consumeUserCredits, hadm, creditBalance]
  · simp [consumeUserCredits, hadm, creditBalance]

/-- Witness for C10: deducting 250 from a balance of 100 stores 0. -/
theorem consume_credits_clamps_at_zero_witness :
    creditBalance (consumeUserCredits (User.mk "alice" (some 100)) 250) =
      max 0 (creditBalance (User.mk "alice" (some 100)) - 250) ∧
    0 ≤ creditBalance (consumeUserCredits (User.mk "alice" (some 100)) 250) :=
  consume_credits_clamps_at_zero (User.mk "alice" (some 100)) 250 (by decide)

/-! ### Claim C7 (batch partition) -/

theorem createBatchesGo_nil {α : Type} (fuel b : Nat) :
    createBatchesGo fuel ([] : List α) b = [] := by
  cases fuel <;> rfl

theorem createBatchesGo_flatten {α : Type} :
    ∀ (fuel : Nat) (items : List α) (b : Nat), 0 < b → items.length ≤ fuel →
      (createBatchesGo fuel items b).flatten = items := by
  intro fuel
  induction fuel with
  | zero =>
    intro items b hb hl
    have : items = [] := List.eq_nil_of_length_eq_zero (Nat.le_zero.mp hl)
    subst this
    rfl
  | succ n ih =>
    intro items b hb hl
    cases items with
    | nil => rfl
    | cons x xs =>
      simp only [createBatchesGo, List.flatten_cons]
      rw [ih _ b hb (by
        simp only [List.length_drop, List.length_cons]
        simp only [List.length_cons] at hl
        omega)]
      exact List.take_append_drop b (x :: xs)

theorem createBatchesGo_length {α : Type} :
    ∀ (fuel : Nat) (items : List α) (b : Nat), 0 < b → items.length ≤ fuel →
      (createBatchesGo fuel items b).length = (items.length + b - 1) / b := by
  intro fuel
  induction fuel with
  | zero =>
    intro items b hb hl
    have h0 : items = [] := List.eq_nil_of_length_eq_zero (Nat.le_zero.mp hl)
    subst h0
    simp only [createBatchesGo, List.length_nil]
    rw [Nat.div_eq_of_lt (by omega)]
  | succ n ih =>
    intro items b hb hl
    cases items with
    | nil =>
      simp only [createBatchesGo, List.length_nil]
      rw [Nat.div_eq_of_lt (by omega)]
    | cons x xs =>
      simp only [createBatchesGo, List.length_cons]
      rw [ih _ b hb (by
        simp only [List.length_drop, List.length_cons]
        simp only [List.length_cons] at hl
        omega)]
      rw [List.length_drop, List.length_cons]
      rcases le_or_lt b (xs.length + 1) with hble | hbgt
      · have h1 : xs.length + 1 + b - 1 = xs.length + b := by omega
        have h3 : xs.length + 1 - b + b - 1 = xs.length := by omega
        rw [h1, Nat.add_div_right _ hb, h3]
      · have h1 : xs.length + 1 - b = 0 := by omega
        have h2 : xs.length + 1 + b - 1 = xs.length + b := by omega
        rw [h1, h2, Nat.div_eq_of_lt (by omega : 0 + b - 1 < b),
          Nat.add_div_right _ hb, Nat.div_eq_of_lt (by omega : xs.length < b)]

theorem createBatchesGo_mem_ne_nil {α : Type} :
    ∀ (fuel : Nat) (items : List α) (b : Nat), 0 < b →
      ∀ batch ∈ createBatchesGo fuel items b, batch ≠ [] := by
  intro fuel
  induction fuel with
  | zero => intro items b hb batch hmem; simp [createBatchesGo] at hmem
  | succ n ih =>
    intro items b hb batch hmem
    cases items with
    | nil => simp [createBatchesGo] at hmem
    | cons x xs =>
      simp only [createBatchesGo, List.mem_cons] at hmem
      rcases hmem with h | h
      · subst h
        obtain ⟨b', rfl⟩ := Nat.exists_eq_succ_of_ne_zero (Nat.pos_iff_ne_zero.mp hb)
        simp [List.take_cons]
      · exact ih _ b hb batch h

theorem createBatchesGo_dropLast_full {α : Type} :
    ∀ (fuel : Nat) (items : List α) (b : Nat), 0 < b → items.length ≤ fuel →
      ∀ batch ∈ (createBatchesGo fuel items b).dropLast, batch.length = b := by
  intro fuel
  induction fuel with
  | zero =>
    intro items b hb hl batch hmem
    have : items = [] := List.eq_nil_of_length_eq_zero (Nat.le_zero.mp hl)
    subst this
    simp [createBatchesGo] at hmem
  | succ n ih =>
    intro items b hb hl batch hmem
    cases items with
    | nil => simp [createBatchesGo] at hmem
    | cons x xs =>
      simp only [createBatchesGo] at hmem
      cases hrest : createBatchesGo n ((x :: xs).drop b) b with
      | nil => rw [hrest] at hmem; simp at hmem
      | cons y ys =>
        rw [hrest, List.dropLast_cons₂, List.mem_cons] at hmem
        rcases hmem with h | h
        · subst h
          have hdrop : (x :: xs).drop b ≠ [] := by
            intro hd
            rw [hd, createBatchesGo_nil] at hrest
            exact List.noConfusion hrest
          have hblt : b < (x :: xs).length := by
            by_contra hc
            exact hdrop (List.drop_eq_nil_iff.mpr (by
              simp only [List.length_cons]
              simp only [List.length_cons] at hc
              omega))
          rw [List.length_take]
          exact Nat.min_eq_left (Nat.le_of_lt hblt)
        · rw [← hrest] at h
          exact ih _ b hb (by
            simp only [List.length_drop, List.length_cons]
            simp only [List.length_cons] at hl
            omega) batch h

/-- Claim C7: for any question list and batch size 5, `createBatches`
produces `⌈N/5⌉` batches (here written `(N + 4) / 5`), every batch is
non-empty, every batch except possibly the last has exactly 5
elements, and the concatenation of the batches is the original list. -/
theorem batch_partition_correct (qs : List String) :
    (createBatches qs 5).length = (qs.length + 4) / 5 ∧
    (∀ batch ∈ createBatches qs 5, batch ≠ []) ∧
    (∀ batch ∈ (createBatches qs 5).dropLast, batch.length = 5) ∧
    (createBatches qs 5).flatten = qs := by
  have h5 : ¬((5 : Nat) = 0) := by decide
  unfold createBatches
  rw [if_neg h5]
  refine ⟨?_, ?_, ?_, ?_⟩
  · rw [createBatchesGo_length qs.length qs 5 (by decide) (le_refl _)]
    omega
  · exact createBatchesGo_mem_ne_nil qs.length qs 5 (by decide)
  · exact createBatchesGo_dropLast_full qs.length qs 5 (by decide) (le_refl _)
  · exact createBatchesGo_flatten qs.length qs 5 (by decide) (le_refl _)

/-- Witness for C7 on a concrete 7-question list: two batches whose
concatenation restores the list. -/
theorem batch_partition_correct_witness :
    (createBatches ["a", "b", "c", "d", "e", "f", "g"] 5).length =
      ((["a", "b", "c", "d", "e", "f", "g"] : List String).length + 4) / 5 ∧
    (createBatches ["a", "b", "c", "d", "e", "f", "g"] 5).flatten =
      ["a", "b", "c", "d", "e", "f", "g"] :=
  ⟨(batch_partition_correct ["a", "b", "c", "d", "e", "f", "g"]).1,
   (batch_partition_correct ["a", "b", "c", "d", "e", "f", "g"]).2.2.2⟩

/-! ### Split/join lemmas for the word-based truncation -/

theorem splitWsF_ne_nil : ∀ (s : List Char) (b : Bool) (cur : List Char),
    splitWsF s b cur ≠ [] := by
  intro s
  induction s with
  | nil => intro b cur; simp [splitWsF]
  | cons c rest ih =>
    intro b cur
    by_cases hc : isWsChar c = true
    · cases b with
      | true => simpa [splitWsF, hc] using ih true cur
      | false => simp [splitWsF, hc]
    · simp only [Bool.not_eq_true] at hc
      simpa [splitWsF, hc] using ih false (c :: cur)

theorem splitWsF_wsFree : ∀ (s : List Char) (b : Bool) (cur : List Char),
    (∀ c ∈ cur, isWsChar c = false) →
    ∀ w ∈ splitWsF s b cur, ∀ c ∈ w, isWsChar c = false := by
  intro s
  induction s with
  | nil =>
    intro b cur hcur w hw c hc
    simp only [splitWsF, List.mem_singleton] at hw
    subst hw
    exact hcur c (List.mem_reverse.mp hc)
  | cons d rest ih =>
    intro b cur hcur w hw c hc
    by_cases hd : isWsChar d = true
    · cases b with
      | true =>
        simp only [splitWsF, hd, if_true] at hw
        exact ih true cur hcur w hw c hc
      | false =>
        simp [splitWsF, hd] at hw
        rcases hw with hw | hw
        · exact hcur c (List.mem_reverse.mp (hw ▸ hc))
        · exact ih true [] (by simp) w hw c hc
    · simp only [Bool.not_eq_true] at hd
      simp only [splitWsF, hd, Bool.false_eq_true, if_false] at hw
      refine ih false (d :: cur) ?_ w hw c hc
      intro e he
      rcases List.mem_cons.mp he with rfl | he
      · exact hd
      · exact hcur e he

theorem splitWsF_false_cons : ∀ (s cur : List Char),
    ∃ h t, splitWsF s false cur = (cur.reverse ++ h) :: t := by
  intro s
  induction s with
  | nil => intro cur; exact ⟨[], [], by simp [splitWsF]⟩
  | cons c rest ih =>
    intro cur
    by_cases hc : isWsChar c = true
    · exact ⟨[], splitWsF rest true [], by simp [splitWsF, hc]⟩
    · simp only [Bool.not_eq_true] at hc
      obtain ⟨h, t, hht⟩ := ih (c :: cur)
      refine ⟨c :: h, t, ?_⟩
      simp only [splitWsF, hc, Bool.false_eq_true, if_false]
      rw [hht]
      simp

theorem splitWsF_inners : ∀ s : List Char,
    (innersNonempty (splitWsF s true []) ∧
      (∀ t, splitWsF s true [] = [] :: t → t = [])) ∧
    ∀ cur, innersNonempty (splitWsF s false cur) := by
  intro s
  induction s with
  | nil =>
    refine ⟨⟨trivial, fun t ht => ?_⟩, fun cur => trivial⟩
    simpa [splitWsF] using ht
  | cons c rest ih =>
    constructor
    · by_cases hc : isWsChar c = true
      · simp only [splitWsF, hc, if_true]
        exact ih.1
      · simp only [Bool.not_eq_true] at hc
        simp only [splitWsF, hc, Bool.false_eq_true, if_false]
        refine ⟨ih.2 [c], fun t ht => ?_⟩
        obtain ⟨h, t', hht⟩ := splitWsF_false_cons rest [c]
        rw [hht] at ht
        simp at ht
    · intro cur
      by_cases hc : isWsChar c = true
      · simp only [splitWsF, hc, if_true, Bool.true_eq_false, if_false]
        cases hL : splitWsF rest true [] with
        | nil => exact absurd hL (splitWsF_ne_nil rest true [])
        | cons x xs =>
          refine ⟨?_, ?_⟩
          · by_cases hx : x = []
            · subst hx
              exact Or.inr (ih.1.2 xs hL)
            · exact Or.inl hx
          · have := ih.1.1
            rw [hL] at this
            exact this
      · simp only [Bool.not_eq_true] at hc
        simp only [splitWsF, hc, Bool.false_eq_true, if_false]
        exact ih.2 (c :: cur)

theorem innersNonempty_take :
    ∀ (l : List (List Char)) (k : Nat), innersNonempty l → innersNonempty (l.take k) := by
  intro l
  induction l with
  | nil => intro k _; simp only [List.take_nil]; trivial
  | cons y l' ih =>
    intro k h
    cases k with
    | zero => trivial
    | succ k' =>
      cases l' with
      | nil => simp only [List.take_succ_cons, List.take_nil]; trivial
      | cons x xs =>
        cases k' with
        | zero => simp only [List.take_succ_cons, List.take_zero]; trivial
        | succ k'' =>
          simp only [List.take_succ_cons]
          refine ⟨?_, ?_⟩
          · rcases h.1 with hx | hxs
            · exact Or.inl hx
            · subst hxs
              exact Or.inr (by simp)
          · have h2 := ih (k'' + 1) h.2
            simpa [List.take_succ_cons] using h2

theorem splitWsF_all_nonws : ∀ (w cur : List Char),
    (∀ c ∈ w, isWsChar c = false) →
    splitWsF w false cur = [cur.reverse ++ w] := by
  intro w
  induction w with
  | nil => intro cur _; simp [splitWsF]
  | cons c w' ih =>
    intro cur h
    have hc : isWsChar c = false := h c (by simp)
    simp only [splitWsF, hc, Bool.false_eq_true, if_false]
    rw [ih (c :: cur) (fun e he => h e (by simp [he]))]
    simp

theorem splitWsF_word_sep : ∀ (w cur s : List Char),
    (∀ c ∈ w, isWsChar c = false) →
    splitWsF (w ++ ' ' :: s) false cur = (cur.reverse ++ w) :: splitWsF s true [] := by
  intro w
  induction w with
  | nil =>
    intro cur s _
    simp [splitWsF, isWsChar]
  | cons c w' ih =>
    intro cur s h
    have hc : isWsChar c = false := h c (by simp)
    simp only [List.cons_append, splitWsF, hc, Bool.false_eq_true, if_false]
    simp only [List.append_eq]
    rw [ih (c :: cur) s (fun e he => h e (by simp [he]))]
    simp

theorem splitWsF_true_of_head_nonws : ∀ s : List Char,
    (∀ c, s.head? = some c → isWsChar c = false) →
    splitWsF s true [] = splitWsF s false [] := by
  intro s h
  cases s with
  | nil => rfl
  | cons c rest =>
    have hc : isWsChar c = false := h c rfl
    simp [splitWsF, hc]

theorem intercalate_singleton (x : Char) (a : List Char) :
    List.intercalate [x] [a] = a := by
  simp [List.intercalate]

theorem intercalate_cons_cons (x : Char) (a b : List Char) (t : List (List Char)) :
    List.intercalate [x] (a :: b :: t) = a ++ x :: List.intercalate [x] (b :: t) := by
  simp [List.intercalate, List.intersperse]

/-- Round trip of the word-based truncation: rejoining a list of
whitespace-free words with single spaces and re-splitting restores the
list, provided only the outermost elements may be empty. -/
theorem jsSplitWs_intercalate : ∀ l : List (List Char), l ≠ [] →
    (∀ w ∈ l, ∀ c ∈ w, isWsChar c = false) →
    innersNonempty l →
    jsSplitWs (List.intercalate [' '] l) = l := by
  intro l
  induction l with
  | nil => intro h; exact absurd rfl h
  | cons w r ih =>
    intro _ hws hinner
    cases r with
    | nil =>
      rw [intercalate_singleton]
      unfold jsSplitWs
      rw [splitWsF_all_nonws w [] (fun c hc => hws w (by simp) c hc)]
      simp
    | cons rr rest =>
      rw [intercalate_cons_cons]
      unfold jsSplitWs
      rw [splitWsF_word_sep w [] _ (fun c hc => hws w (by simp) c hc)]
      simp only [List.reverse_nil, List.nil_append]
      congr 1
      have hinner2 : innersNonempty (rr :: rest) := hinner.2
      have hws2 : ∀ v ∈ rr :: rest, ∀ c ∈ v, isWsChar c = false :=
        fun v hv => hws v (by simp [hv])
      have hhd : ∀ c, (List.intercalate [' '] (rr :: rest)).head? = some c →
          isWsChar c = false := by
        intro c hc
        rcases hinner.1 with hrr | hrest
        · cases rr with
          | nil => exact absurd rfl hrr
          | cons d rr' =>
            have hdc : d = c := by
              cases rest with
              | nil => rw [intercalate_singleton] at hc; simpa using hc
              | cons r2 rest2 =>
                rw [intercalate_cons_cons] at hc
                simpa using hc
            subst hdc
            exact hws2 (d :: rr') (by simp) d (by simp)
        · subst hrest
          rw [intercalate_singleton] at hc
          cases rr with
          | nil => simp at hc
          | cons d rr' =>
            have hdc : d = c := by simpa using hc
            subst hdc
            exact hws2 (d :: rr') (by simp) d (by simp)
      rw [splitWsF_true_of_head_nonws _ hhd]
      exact ih (by simp) hws2 hinner2

/-! ### Claim C6 (truncation) -/

theorem wordCount_pos (text : List Char) : 1 ≤ wordCount text :=
  List.length_pos.mpr (splitWsF_ne_nil text false [])

theorem truncation_target_le (text : List Char) :
    max 1 (wordCount text * 30 / 100) ≤ wordCount text := by
  refine max_le (wordCount_pos text) ?_
  calc wordCount text * 30 / 100 ≤ wordCount text * 100 / 100 :=
        Nat.div_le_div_right (Nat.mul_le_mul_left _ (by omega))
    _ = wordCount text := Nat.mul_div_cancel (wordCount text) (by omega)

/-- Word-count bound of the server-side truncation: the rejoined kept
words re-split to exactly `max 1 ⌊wordCount * 30 / 100⌋` elements. -/
theorem wordCount_truncatedWords (text : List Char) :
    wordCount (truncatedWords text 30) = max 1 (wordCount text * 30 / 100) := by
  have hne : (jsSplitWs text).take (max 1 (wordCount text * 30 / 100)) ≠ [] := by
    rw [Ne, List.take_eq_nil_iff]
    push_neg
    exact ⟨by positivity, splitWsF_ne_nil text false []⟩
  have hws : ∀ w ∈ (jsSplitWs text).take (max 1 (wordCount text * 30 / 100)),
      ∀ c ∈ w, isWsChar c = false := by
    intro w hw
    exact splitWsF_wsFree text false [] (by simp) w (List.mem_of_mem_take hw)
  have hinner : innersNonempty ((jsSplitWs text).take (max 1 (wordCount text * 30 / 100))) :=
    innersNonempty_take _ _ ((splitWsF_inners text).2 [])
  unfold truncatedWords
  show (jsSplitWs (List.intercalate [' ']
      ((jsSplitWs text).take (max 1 (wordCount text * 30 / 100))))).length = _
  rw [jsSplitWs_intercalate _ hne hws hinner, List.length_take]
  exact Nat.min_eq_left (truncation_target_le text)

theorem dropWhile_prefix_mono {p : Char → Bool} :
    ∀ l₁ l₂ : List Char, l₁ <+: l₂ → l₁.dropWhile p <+: l₂.dropWhile p := by
  intro l₁
  induction l₁ with
  | nil => intro l₂ _; simp only [List.dropWhile_nil]; exact List.nil_prefix
  | cons a l ih =>
    intro l₂ h
    obtain ⟨t, rfl⟩ := h
    by_cases hp : p a = true
    · simp only [List.cons_append, List.dropWhile_cons, hp, if_true]
      exact ih (l ++ t) (List.prefix_append l t)
    · simp only [Bool.not_eq_true] at hp
      simp only [List.cons_append, List.dropWhile_cons, hp, Bool.false_eq_true, if_false]
      exact List.cons_prefix_cons.mpr ⟨rfl, List.prefix_append l t⟩

theorem jsTrimChars_take_prefix_dropWhile (text : List Char) (k : Nat) :
    jsTrimChars (text.take k) <+: text.dropWhile isWsChar := by
  have h1 : (text.take k).dropWhile isWsChar <+: text.dropWhile isWsChar :=
    dropWhile_prefix_mono _ _ ⟨text.drop k, List.take_append_drop k text⟩
  have h2 : jsTrimChars (text.take k) <+: (text.take k).dropWhile isWsChar := by
    show List.rdropWhile isWsChar ((text.take k).dropWhile isWsChar) <+:
      (text.take k).dropWhile isWsChar
    exact List.rdropWhile_prefix isWsChar ((text.take k).dropWhile isWsChar)
  exact h2.trans h1

theorem jsTrimChars_length_le (s : List Char) : (jsTrimChars s).length ≤ s.length := by
  unfold jsTrimChars
  calc ((s.dropWhile isWsChar).reverse.dropWhile isWsChar).reverse.length
      = ((s.dropWhile isWsChar).reverse.dropWhile isWsChar).length := List.length_reverse _
    _ ≤ (s.dropWhile isWsChar).reverse.length :=
        (List.dropWhile_suffix isWsChar).sublist.length_le
    _ = (s.dropWhile isWsChar).length := List.length_reverse _
    _ ≤ s.length := (List.dropWhile_suffix isWsChar).sublist.length_le

theorem clientTruncate_bounds (text : List Char) :
    (UserCredits.truncateToPercentage text 30).length ≤ text.length ∧
    UserCredits.truncateToPercentage text 30 <+: text.dropWhile isWsChar := by
  unfold UserCredits.truncateToPercentage
  rw [if_neg (by omega : ¬(100 ≤ 30))]
  constructor
  · exact le_trans (jsTrimChars_length_le _)
      (by rw [List.length_take]; exact Nat.min_le_right _ _)
  · exact jsTrimChars_take_prefix_dropWhile text _

/-- Counterexample to claim C6 as stated: the character-based
truncation's output is not always a prefix of the input, because the
final `.trim()` removes leading whitespace.  On the input
`" x. aaaaaaaaaaaaaaaa"` the sentence-boundary cut keeps `" x. "` and
trimming yields `"x."`, which is not a prefix of the input. -/
theorem truncation_prefix_counterexample :
    ¬ (UserCredits.truncateToPercentage (String.toList " x. aaaaaaaaaaaaaaaa") 30 <+:
        String.toList " x. aaaaaaaaaaaaaaaa") := by
  decide

/-- Claim C6 (amended): the word-based server truncation at 30% keeps
exactly `max 1 ⌊wordCount(text) * 0.3⌋` split elements (plus the
optional trailing ellipsis), and the character-based client truncation
at 30% has output length at most the input length and is a prefix of
the input with its leading whitespace removed (for inputs not starting
with whitespace, a prefix of the input itself). -/
theorem truncation_bounds (text : List Char) :
    truncateToPercentage text 30 =
      truncatedWords text 30 ++
        (if (truncatedWords text 30).length < text.length then ['.', '.', '.'] else []) ∧
    wordCount (truncatedWords text 30) = max 1 (wordCount text * 30 / 100) ∧
    (UserCredits.truncateToPercentage text 30).length ≤ text.length ∧
    UserCredits.truncateToPercentage text 30 <+: text.dropWhile isWsChar := by
  refine ⟨?_, wordCount_truncatedWords text, (clientTruncate_bounds text).1,
    (clientTruncate_bounds text).2⟩
  unfold truncateToPercentage truncatedWords wordCount
  rw [if_neg (by omega : ¬(100 ≤ 30))]

/-! ### Claim C8 (malformed-frame resilience) -/

theorem splitNl_append_nl : ∀ (a s : List Char), '\n' ∉ a →
    splitNl (a ++ '\n' :: s) = a :: splitNl s := by
  intro a
  induction a with
  | nil => intro s _; simp [splitNl]
  | cons c a' ih =>
    intro s h
    have hc : ¬(c = '\n') := fun hcc => h (by simp [hcc])
    simp only [List.cons_append, splitNl, hc, if_false, List.append_eq]
    rw [ih s (fun hm => h (by simp [hm]))]

theorem take_dataMarker (j : List Char) : (dataMarker ++ j).take 6 = dataMarker := by
  rw [show (6 : Nat) = dataMarker.length from rfl]
  exact List.take_left dataMarker j

theorem drop_dataMarker (j : List Char) : (dataMarker ++ j).drop 6 = j := by
  rw [show (6 : Nat) = dataMarker.length from rfl]
  exact List.drop_left dataMarker j

/-- Claim C8: a provider stream whose wire content carries one
unparsable `data:` line between two valid content-bearing lines yields
exactly the two valid increments, in order; the malformed line is
skipped (the `JSON.parse` failure is caught and the loop continues)
and no error reaches the caller. -/
theorem malformed_frame_resilience (parse : List Char → Option (List Char))
    (j1 jm j2 c1 c2 : List Char)
    (h1n : '\n' ∉ j1) (hmn : '\n' ∉ jm) (h2n : '\n' ∉ j2)
    (h1d : jsTrimChars j1 ≠ doneMarker) (hmd : jsTrimChars jm ≠ doneMarker)
    (h2d : jsTrimChars j2 ≠ doneMarker)
    (hp1 : parse (jsTrimChars j1) = some c1)
    (hpm : parse (jsTrimChars jm) = none)
    (hp2 : parse (jsTrimChars j2) = some c2) :
    streamResponse parse
      [dataMarker ++ j1 ++ '\n' ::
        (dataMarker ++ jm ++ '\n' ::
          (dataMarker ++ j2 ++ '\n' ::
            (dataMarker ++ doneMarker ++ ['\n'])))] = [c1, c2] := by
  have hnm : ('\n' : Char) ∉ dataMarker := by decide
  have hnd : ('\n' : Char) ∉ doneMarker := by decide
  have hmem : ∀ j : List Char, '\n' ∉ j → ('\n' : Char) ∉ dataMarker ++ j := by
    intro j hj hcon
    rcases List.mem_append.mp hcon with h | h
    · exact hnm h
    · exact hj h
  have hsplit : splitNl (dataMarker ++ j1 ++ '\n' ::
      (dataMarker ++ jm ++ '\n' ::
        (dataMarker ++ j2 ++ '\n' ::
          (dataMarker ++ doneMarker ++ ['\n'])))) =
      [dataMarker ++ j1, dataMarker ++ jm, dataMarker ++ j2, dataMarker ++ doneMarker, []] := by
    rw [splitNl_append_nl _ _ (hmem j1 h1n)]
    rw [splitNl_append_nl _ _ (hmem jm hmn)]
    rw [splitNl_append_nl _ _ (hmem j2 h2n)]
    rw [show (dataMarker ++ doneMarker ++ ['\n'] : List Char) =
      (dataMarker ++ doneMarker) ++ '\n' :: [] from rfl]
    rw [splitNl_append_nl _ _ (hmem doneMarker hnd)]
    rfl
  have hlines : processDataLines parse
      [dataMarker ++ j1, dataMarker ++ jm, dataMarker ++ j2, dataMarker ++ doneMarker] =
      ([c1, c2], true) := by
    simp [processDataLines, take_dataMarker, drop_dataMarker, h1d, hmd, h2d,
      hp1, hpm, hp2, (by decide : jsTrimChars doneMarker = doneMarker)]
  unfold streamResponse
  simp only [streamLoop, List.nil_append]
  rw [hsplit]
  simp only [List.dropLast]
  rw [hlines]
  rfl

/-! ### Orchestrator preservation lemmas -/

theorem broadcastToStream_none (w : World) (analysisId : String) (e : StreamEvent)
    (h : w.streams analysisId = none) :
    (broadcastToStream w analysisId e).delivered = w.delivered := by
  simp [broadcastToStream, broadcastDeliveries, h]

theorem mem_broadcast_delivered (w : World) (analysisId : String) (e : StreamEvent) :
    ∀ p ∈ (broadcastToStream w analysisId e).delivered, p ∈ w.delivered ∨ p.2 = e := by
  intro p hp
  simp only [broadcastToStream, List.mem_append] at hp
  rcases hp with hp | hp
  · exact Or.inl hp
  · right
    unfold broadcastDeliveries at hp
    cases h : w.streams analysisId with
    | none => rw [h] at hp; simp at hp
    | some ch =>
      rw [h] at hp
      by_cases ha : ch.isActive = true
      · simp only [ha, if_true] at hp
        obtain ⟨cb, _, hpe⟩ := List.mem_map.mp hp
        rw [← hpe]
      · simp [ha] at hp

theorem streamActive_congr {w w' : World} (analysisId : String)
    (h : w'.streams = w.streams) : streamActive w' analysisId = streamActive w analysisId := by
  unfold streamActive
  rw [h]

theorem streamSummaryGo_streams (analysisId : String) (hfa : Bool) :
    ∀ (chunks : List (List Char)) (w : World) (acc : List Char),
      (streamSummaryGo analysisId hfa w acc chunks).1.streams = w.streams := by
  intro chunks
  induction chunks with
  | nil => intro w acc; rfl
  | cons c rest ih =>
    intro w acc
    simp only [streamSummaryGo]
    rw [ih]
    rfl

theorem streamSummaryGo_storage (analysisId : String) (hfa : Bool) :
    ∀ (chunks : List (List Char)) (w : World) (acc : List Char),
      (streamSummaryGo analysisId hfa w acc chunks).1.storage = w.storage := by
  intro chunks
  induction chunks with
  | nil => intro w acc; rfl
  | cons c rest ih =>
    intro w acc
    simp only [streamSummaryGo]
    rw [ih]
    rfl

theorem streamSummaryGo_acc (analysisId : String) (hfa : Bool) :
    ∀ (chunks : List (List Char)) (w : World) (acc : List Char),
      (streamSummaryGo analysisId hfa w acc chunks).2 = acc ++ chunks.flatten := by
  intro chunks
  induction chunks with
  | nil => intro w acc; simp [streamSummaryGo]
  | cons c rest ih =>
    intro w acc
    simp only [streamSummaryGo]
    rw [ih]
    simp

theorem streamSummaryGo_delivered (analysisId : String) (hfa : Bool) :
    ∀ (chunks : List (List Char)) (w : World) (acc : List Char),
      ∀ p ∈ (streamSummaryGo analysisId hfa w acc chunks).1.delivered,
        p ∈ w.delivered ∨ ∃ c, p.2 = StreamEvent.summary c := by
  intro chunks
  induction chunks with
  | nil => intro w acc p hp; exact Or.inl hp
  | cons c rest ih =>
    intro w acc p hp
    simp only [streamSummaryGo] at hp
    rcases ih _ _ p hp with hp2 | hp2
    · rcases mem_broadcast_delivered _ _ _ p hp2 with hp3 | hp3
      · exact Or.inl hp3
      · exact Or.inr ⟨_, hp3⟩
    · exact Or.inr hp2

theorem streamSummary_preserves (w : World) (a : Analysis) (hfa : Bool)
    (chunks : List (List Char)) :
    (streamSummary w a hfa chunks).1.storage = w.storage ∧
    (streamSummary w a hfa chunks).1.streams = w.streams := by
  unfold streamSummary
  by_cases h : chunks.isEmpty = true
  · rw [if_pos h]
    exact ⟨streamSummaryGo_storage _ _ _ _ _, streamSummaryGo_streams _ _ _ _ _⟩
  · rw [if_neg h]
    exact ⟨streamSummaryGo_storage _ _ _ _ _, streamSummaryGo_streams _ _ _ _ _⟩

theorem streamSummary_ok (w : World) (a : Analysis) (hfa : Bool)
    (chunks : List (List Char)) (h : chunks ≠ []) :
    (streamSummary w a hfa chunks).2 = Except.ok chunks.flatten := by
  unfold streamSummary
  rw [if_neg (by simp [List.isEmpty_iff, h])]
  rw [streamSummaryGo_acc]
  simp

theorem streamSummary_delivered (w : World) (a : Analysis) (hfa : Bool)
    (chunks : List (List Char)) :
    ∀ p ∈ (streamSummary w a hfa chunks).1.delivered,
      p ∈ w.delivered ∨ ∃ c, p.2 = StreamEvent.summary c := by
  unfold streamSummary
  by_cases h : chunks.isEmpty = true
  · rw [if_pos h]
    exact streamSummaryGo_delivered _ _ _ _ _
  · rw [if_neg h]
    exact streamSummaryGo_delivered _ _ _ _ _

theorem processBatchGo_streams (analysisId : String) (batchNumber : Nat) (hfa : Bool) :
    ∀ (chunks : List (List Char)) (w : World) (acc : List Char),
      (processBatchGo analysisId batchNumber hfa w acc chunks).1.streams = w.streams := by
  intro chunks
  induction chunks with
  | nil => intro w acc; rfl
  | cons c rest ih =>
    intro w acc
    simp only [processBatchGo]
    rw [ih]
    rfl

theorem processBatchGo_storage (analysisId : String) (batchNumber : Nat) (hfa : Bool) :
    ∀ (chunks : List (List Char)) (w : World) (acc : List Char),
      (processBatchGo analysisId batchNumber hfa w acc chunks).1.storage = w.storage := by
  intro chunks
  induction chunks with
  | nil => intro w acc; rfl
  | cons c rest ih =>
    intro w acc
    simp only [processBatchGo]
    rw [ih]
    rfl

theorem processBatchGo_acc (analysisId : String) (batchNumber : Nat) (hfa : Bool) :
    ∀ (chunks : List (List Char)) (w : World) (acc : List Char),
      (processBatchGo analysisId batchNumber hfa w acc chunks).2 = acc ++ chunks.flatten := by
  intro chunks
  induction chunks with
  | nil => intro w acc; simp [processBatchGo]
  | cons c rest ih =>
    intro w acc
    simp only [processBatchGo]
    rw [ih]
    simp

theorem processBatch_preserves (w : World) (a : Analysis) (batchNumber : Nat) (hfa : Bool)
    (chunks : List (List Char)) :
    (processBatch w a batchNumber hfa chunks).1.storage = w.storage ∧
    (processBatch w a batchNumber hfa chunks).1.streams = w.streams := by
  unfold processBatch
  by_cases h : chunks.isEmpty = true
  · rw [if_pos h]
    exact ⟨processBatchGo_storage _ _ _ _ _ _, processBatchGo_streams _ _ _ _ _ _⟩
  · rw [if_neg h]
    constructor
    · rw [broadcastToStream_storage]
      exact processBatchGo_storage _ _ _ _ _ _
    · rw [broadcastToStream_streams]
      exact processBatchGo_streams _ _ _ _ _ _

theorem processBatch_ok (w : World) (a : Analysis) (batchNumber : Nat) (hfa : Bool)
    (chunks : List (List Char)) (h : chunks ≠ []) :
    (processBatch w a batchNumber hfa chunks).2 = Except.ok chunks.flatten := by
  unfold processBatch
  rw [if_neg (by simp [List.isEmpty_iff, h])]
  rw [processBatchGo_acc]
  simp

theorem foldl_broadcast_streams (analysisId : String) (f : Nat → StreamEvent) :
    ∀ (l : List Nat) (w : World),
      (l.foldl (fun w step => broadcastToStream w analysisId (f step)) w).streams =
        w.streams := by
  intro l
  induction l with
  | nil => intro w; rfl
  | cons x xs ih =>
    intro w
    simp only [List.foldl_cons]
    rw [ih]
    rfl

theorem foldl_broadcast_storage (analysisId : String) (f : Nat → StreamEvent) :
    ∀ (l : List Nat) (w : World),
      (l.foldl (fun w step => broadcastToStream w analysisId (f step)) w).storage =
        w.storage := by
  intro l
  induction l with
  | nil => intro w; rfl
  | cons x xs ih =>
    intro w
    simp only [List.foldl_cons]
    rw [ih]
    rfl

theorem streamDelay_preserves (w : World) (analysisId : String) (delayMs : Nat) :
    (streamDelay w analysisId delayMs).storage = w.storage ∧
    (streamDelay w analysisId delayMs).streams = w.streams := by
  unfold streamDelay
  exact ⟨foldl_broadcast_storage _ _ _ _, foldl_broadcast_streams _ _ _ _⟩

theorem updateAnalysisResults_noWrite (w : World) (p : ResultsPayload) :
    updateAnalysisResults w p false = w := by
  simp [updateAnalysisResults]

theorem handleFailure_status (w : World) (a : Analysis) (e : Err) (writeOk : Bool) :
    (handleFailure w a e writeOk).1.storage.status = "error" := by
  unfold handleFailure updateAnalysisResults updateAnalysisStatus
  by_cases h : writeOk = true <;> simp [h]

theorem handleFailure_streams (w : World) (a : Analysis) (e : Err) (writeOk : Bool) :
    (handleFailure w a e writeOk).1.streams = w.streams := by
  unfold handleFailure updateAnalysisResults updateAnalysisStatus
  by_cases h : writeOk = true <;> simp [h]

theorem handleFailure_delivered (w : World) (a : Analysis) (e : Err) (writeOk : Bool) :
    (handleFailure w a e writeOk).1.delivered = w.delivered := by
  unfold handleFailure updateAnalysisResults updateAnalysisStatus
  by_cases h : writeOk = true <;> simp [h]

theorem handleFailure_results_write (w : World) (a : Analysis) (e : Err) :
    (handleFailure w a e true).1.storage.results = some (ResultsPayload.failure e a.atype) := by
  simp [handleFailure, updateAnalysisResults, updateAnalysisStatus]

theorem handleFailure_err (w : World) (a : Analysis) (e : Err) (writeOk : Bool) :
    (handleFailure w a e writeOk).2 = Except.error e := rfl

theorem finishAnalysis_completed (w3 : World) (a : Analysis) (r : Except Err Unit)
    (writeOk : Bool) :
    (finishAnalysis w3 a r writeOk).1.storage.status = "completed" →
    (finishAnalysis w3 a r writeOk).1.storage.results ≠ none := by
  unfold finishAnalysis
  cases r with
  | error e =>
    intro h
    exact absurd ((handleFailure_status w3 a e writeOk).symm.trans h) (by decide)
  | ok u =>
    by_cases hres : w3.storage.results = none
    · rw [if_pos hres]
      intro h
      exact absurd ((handleFailure_status w3 a Err.resultsNotSaved writeOk).symm.trans h)
        (by decide)
    · rw [if_neg hres]
      intro _
      simpa [broadcastToStream, updateAnalysisStatus] using hres

theorem finishAnalysis_error_none (w3 : World) (a : Analysis) (r : Except Err Unit)
    (writeOk : Bool) (h : w3.storage.results = none) :
    (finishAnalysis w3 a r writeOk).1.storage.status = "error" := by
  unfold finishAnalysis
  cases r with
  | error e => exact handleFailure_status w3 a e writeOk
  | ok u =>
    rw [if_pos h]
    exact handleFailure_status w3 a Err.resultsNotSaved writeOk

theorem startAnalysis_storage (w0 : World) (a : Analysis) (sc : List (List Char))
    (bc : List (List (List Char))) (qs : List String) (vT sAS wOk : Bool) :
    (startAnalysis w0 a sc bc qs vT sAS wOk).storage =
      (processAnalysis w0 a sc bc qs vT sAS wOk).1.storage := by
  unfold startAnalysis
  cases hp : (processAnalysis w0 a sc bc qs vT sAS wOk).2 with
  | error e => simp [hp, broadcastToStream_storage]
  | ok u => simp [hp]

theorem pBWR_preserves (a : Analysis) (hfa : Bool) :
    ∀ (bc : List (List (List Char))) (w : World) (i : Nat),
      (processBatchesWithResults a hfa w i bc).1.storage = w.storage ∧
      (processBatchesWithResults a hfa w i bc).1.streams = w.streams := by
  intro bc
  induction bc with
  | nil => intro w i; exact ⟨rfl, rfl⟩
  | cons chunks rest ih =>
    intro w i
    simp only [processBatchesWithResults]
    by_cases h1 : streamActive w a.id = true
    swap
    · rw [if_neg h1]
      exact ⟨rfl, rfl⟩
    rw [if_pos h1]
    have hbp := processBatch_preserves w a (i + 1) hfa chunks
    cases hb : (processBatch w a (i + 1) hfa chunks).2 with
    | error e =>
      simp only [hb]
      exact hbp
    | ok full =>
      simp only [hb]
      set b1 := (processBatch w a (i + 1) hfa chunks).1 with hb1def
      set w2 := if rest.isEmpty = true then b1 else streamDelay b1 a.id 10000 with hw2def
      have hw2s : w2.storage = w.storage ∧ w2.streams = w.streams := by
        rw [hw2def]
        by_cases h3 : rest.isEmpty = true
        · rw [if_pos h3]
          exact hbp
        · rw [if_neg h3]
          exact ⟨(streamDelay_preserves _ _ _).1.trans hbp.1,
            (streamDelay_preserves _ _ _).2.trans hbp.2⟩
      by_cases h2 : streamActive b1 a.id = true
      · rw [if_pos h2]
        have hih := ih w2 (i + 1)
        cases hr : (processBatchesWithResults a hfa w2 (i + 1) rest).2 with
        | error e => simp only [hr]; exact ⟨hih.1.trans hw2s.1, hih.2.trans hw2s.2⟩
        | ok results => simp only [hr]; exact ⟨hih.1.trans hw2s.1, hih.2.trans hw2s.2⟩
      · rw [if_neg h2]
        exact hbp

theorem pCB_preserves (a : Analysis) (hfa : Bool) :
    ∀ (bc : List (List (List Char))) (w : World) (i : Nat),
      (processCognitiveBatches a hfa w i bc).1.storage = w.storage ∧
      (processCognitiveBatches a hfa w i bc).1.streams = w.streams := by
  intro bc
  induction bc with
  | nil => intro w i; exact ⟨rfl, rfl⟩
  | cons chunks rest ih =>
    intro w i
    simp only [processCognitiveBatches]
    by_cases h1 : streamActive w a.id = true
    swap
    · rw [if_neg h1]
      exact ⟨rfl, rfl⟩
    rw [if_pos h1]
    have hbp := processBatch_preserves w a (i + 1) hfa chunks
    cases hb : (processBatch w a (i + 1) hfa chunks).2 with
    | error e =>
      simp only [hb]
      exact hbp
    | ok full =>
      simp only [hb]
      set b1 := (processBatch w a (i + 1) hfa chunks).1 with hb1def
      set w2 := if rest.isEmpty = true then b1 else streamDelay b1 a.id 10000 with hw2def
      have hw2s : w2.storage = w.storage ∧ w2.streams = w.streams := by
        rw [hw2def]
        by_cases h3 : rest.isEmpty = true
        · rw [if_pos h3]
          exact hbp
        · rw [if_neg h3]
          exact ⟨(streamDelay_preserves _ _ _).1.trans hbp.1,
            (streamDelay_preserves _ _ _).2.trans hbp.2⟩
      by_cases h2 : streamActive b1 a.id = true
      · rw [if_pos h2]
        have hih := ih w2 (i + 1)
        cases hr : (processCognitiveBatches a hfa w2 (i + 1) rest).2 with
        | error e => simp only [hr]; exact ⟨hih.1.trans hw2s.1, hih.2.trans hw2s.2⟩
        | ok results =>
          cases results with
          | none => simp only [hr]; exact ⟨hih.1.trans hw2s.1, hih.2.trans hw2s.2⟩
          | some l => simp only [hr]; exact ⟨hih.1.trans hw2s.1, hih.2.trans hw2s.2⟩
      · rw [if_neg h2]
        exact hbp

theorem pBWR_inactive (a : Analysis) (hfa : Bool) (w : World) (i : Nat)
    (chunks : List (List Char)) (rest : List (List (List Char)))
    (h : streamActive w a.id = false) :
    processBatchesWithResults a hfa w i (chunks :: rest) =
      (w, Except.error Err.stoppedByUser) := by
  simp only [processBatchesWithResults]
  rw [if_neg (by simp [h])]

theorem pCB_inactive (a : Analysis) (hfa : Bool) (w : World) (i : Nat)
    (chunks : List (List Char)) (rest : List (List (List Char)))
    (h : streamActive w a.id = false) :
    processCognitiveBatches a hfa w i (chunks :: rest) = (w, Except.ok none) := by
  simp only [processCognitiveBatches]
  rw [if_neg (by simp [h])]

theorem pBWR_ok (a : Analysis) (hfa : Bool) :
    ∀ (bc : List (List (List Char))) (w : World) (i : Nat),
      streamActive w a.id = true → (∀ b ∈ bc, b ≠ []) →
      (processBatchesWithResults a hfa w i bc).2 = Except.ok (bc.map List.flatten) := by
  intro bc
  induction bc with
  | nil => intro w i _ _; rfl
  | cons chunks rest ih =>
    intro w i h1 hne
    simp only [processBatchesWithResults]
    rw [if_pos h1]
    simp only [processBatch_ok w a (i + 1) hfa chunks (hne chunks (by simp))]
    have h2 : streamActive (processBatch w a (i + 1) hfa chunks).1 a.id = true := by
      rw [streamActive_congr a.id (processBatch_preserves w a (i + 1) hfa chunks).2]
      exact h1
    rw [if_pos h2]
    set b1 := (processBatch w a (i + 1) hfa chunks).1 with hb1def
    set w2 := if rest.isEmpty = true then b1 else streamDelay b1 a.id 10000 with hw2def
    have hact2 : streamActive w2 a.id = true := by
      rw [hw2def]
      by_cases h3 : rest.isEmpty = true
      · rw [if_pos h3]; exact h2
      · rw [if_neg h3]
        rw [streamActive_congr a.id (streamDelay_preserves b1 a.id 10000).2]
        exact h2
    simp only [ih w2 (i + 1) hact2 (fun b hb => hne b (by simp [hb]))]
    simp

theorem pCB_ok (a : Analysis) (hfa : Bool) :
    ∀ (bc : List (List (List Char))) (w : World) (i : Nat),
      streamActive w a.id = true → (∀ b ∈ bc, b ≠ []) →
      (processCognitiveBatches a hfa w i bc).2 = Except.ok (some (bc.map List.flatten)) := by
  intro bc
  induction bc with
  | nil => intro w i _ _; rfl
  | cons chunks rest ih =>
    intro w i h1 hne
    simp only [processCognitiveBatches]
    rw [if_pos h1]
    simp only [processBatch_ok w a (i + 1) hfa chunks (hne chunks (by simp))]
    have h2 : streamActive (processBatch w a (i + 1) hfa chunks).1 a.id = true := by
      rw [streamActive_congr a.id (processBatch_preserves w a (i + 1) hfa chunks).2]
      exact h1
    rw [if_pos h2]
    set b1 := (processBatch w a (i + 1) hfa chunks).1 with hb1def
    set w2 := if rest.isEmpty = true then b1 else streamDelay b1 a.id 10000 with hw2def
    have hact2 : streamActive w2 a.id = true := by
      rw [hw2def]
      by_cases h3 : rest.isEmpty = true
      · rw [if_pos h3]; exact h2
      · rw [if_neg h3]
        rw [streamActive_congr a.id (streamDelay_preserves b1 a.id 10000).2]
        exact h2
    simp only [ih w2 (i + 1) hact2 (fun b hb => hne b (by simp [hb]))]
    simp

theorem runVariant_storage_noWrite (a : Analysis) (hfa vT : Bool) (w : World)
    (sc : List (List Char)) (bc : List (List (List Char))) (qs : List String)
    (sAS : Bool) :
    (runVariant a hfa vT w sc bc qs sAS false).1.storage = w.storage := by
  simp only [runVariant]
  cases hs : (streamSummary w a hfa sc).2 with
  | error e =>
    simp only [hs]
    exact (streamSummary_preserves w a hfa sc).1
  | ok summary =>
    simp only [hs]
    have hw2 : ((if sAS = true then stopAnalysis (streamSummary w a hfa sc).1 a.id
        else (streamSummary w a hfa sc).1) : World).storage = w.storage := by
      by_cases hsas : sAS = true
      · rw [if_pos hsas, stopAnalysis_storage]
        exact (streamSummary_preserves w a hfa sc).1
      · rw [if_neg hsas]
        exact (streamSummary_preserves w a hfa sc).1
    set w2 : World := if sAS = true then stopAnalysis (streamSummary w a hfa sc).1 a.id
        else (streamSummary w a hfa sc).1 with hw2def
    by_cases hv : vT = true
    · rw [if_pos hv]
      cases hb : (processBatchesWithResults a hfa w2 0 bc).2 with
      | error e =>
        simp only [hb]
        exact (pBWR_preserves a hfa bc w2 0).1.trans hw2
      | ok results =>
        simp only [hb, updateAnalysisResults_noWrite]
        exact (pBWR_preserves a hfa bc w2 0).1.trans hw2
    · rw [if_neg hv]
      cases hb : (processCognitiveBatches a hfa w2 0 bc).2 with
      | error e =>
        simp only [hb]
        exact (pCB_preserves a hfa bc w2 0).1.trans hw2
      | ok o =>
        cases o with
        | none =>
          simp only [hb]
          exact (pCB_preserves a hfa bc w2 0).1.trans hw2
        | some l =>
          simp only [hb, updateAnalysisResults_noWrite]
          exact (pCB_preserves a hfa bc w2 0).1.trans hw2

theorem runVariant_stopped (a : Analysis) (hfa vT : Bool) (w : World)
    (sc : List (List Char)) (bc : List (List (List Char))) (qs : List String)
    (hsc : sc ≠ []) (hbc : bc ≠ []) :
    runVariant a hfa vT w sc bc qs true true =
      (stopAnalysis (streamSummary w a hfa sc).1 a.id,
       if vT then Except.error Err.stoppedByUser else Except.ok ()) := by
  obtain ⟨chunks, rest, rfl⟩ : ∃ c r, bc = c :: r := by
    cases bc with
    | nil => exact absurd rfl hbc
    | cons c r => exact ⟨c, r, rfl⟩
  simp only [runVariant, streamSummary_ok w a hfa sc hsc]
  simp only [eq_self_iff_true, if_true]
  have hact : streamActive (stopAnalysis (streamSummary w a hfa sc).1 a.id) a.id = false :=
    streamActive_stopAnalysis _ _
  by_cases hv : vT = true
  · subst hv
    simp only [eq_self_iff_true, if_true]
    rw [pBWR_inactive a hfa _ 0 chunks rest hact]
  · replace hv : vT = false := by simpa using hv
    subst hv
    simp only [Bool.false_eq_true, if_false]
    rw [pCB_inactive a hfa _ 0 chunks rest hact]

theorem runVariant_success (a : Analysis) (hfa vT : Bool) (w : World)
    (sc : List (List Char)) (bc : List (List (List Char))) (qs : List String)
    (hsc : sc ≠ []) (hbc : ∀ b ∈ bc, b ≠ []) (hact : streamActive w a.id = true) :
    (runVariant a hfa vT w sc bc qs false true).2 = Except.ok () ∧
    (runVariant a hfa vT w sc bc qs false true).1.storage.results =
      some (ResultsPayload.success sc.flatten (bc.map List.flatten) qs a.atype) := by
  have hact1 : streamActive (streamSummary w a hfa sc).1 a.id = true := by
    rw [streamActive_congr a.id (streamSummary_preserves w a hfa sc).2]
    exact hact
  simp only [runVariant, streamSummary_ok w a hfa sc hsc]
  simp only [Bool.false_eq_true, if_false]
  by_cases hv : vT = true
  · subst hv
    simp only [eq_self_iff_true, if_true]
    simp only [pBWR_ok a hfa bc _ 0 hact1 hbc]
    constructor
    · trivial
    · simp [updateAnalysisResults]
  · replace hv : vT = false := by simpa using hv
    subst hv
    simp only [Bool.false_eq_true, if_false]
    simp only [pCB_ok a hfa bc _ 0 hact1 hbc]
    constructor
    · trivial
    · simp [updateAnalysisResults]

/-- Witness for C8: a concrete parser and three concrete payload
lines, the middle one unparsable. -/
theorem malformed_frame_resilience_witness :
    streamResponse
      (fun d => if d = ['1'] then some ['A'] else if d = ['2'] then some ['B'] else none)
      [dataMarker ++ ['1'] ++ '\n' ::
        (dataMarker ++ ['{'] ++ '\n' ::
          (dataMarker ++ ['2'] ++ '\n' ::
            (dataMarker ++ doneMarker ++ ['\n'])))] = [['A'], ['B']] := by
  exact malformed_frame_resilience
    (fun d => if d = ['1'] then some ['A'] else if d = ['2'] then some ['B'] else none)
    ['1'] ['{'] ['2'] ['A'] ['B']
    (by decide) (by decide) (by decide)
    (by decide) (by decide) (by decide)
    (by decide) (by decide) (by decide)

/-! ### Claims C9, C3, C2, C4 (orchestrator) -/

/-- Claim C9: a run's persisted status is `completed` only when a
non-null results payload is in place — the orchestrator re-reads the
job after the variant finishes and fails (terminating in `error`) when
the results field is still null, as exercised here by a storage layer
that may silently drop results writes (`wOk = false`). -/
theorem completed_only_with_results (w0 : World) (a : Analysis) (sc : List (List Char))
    (bc : List (List (List Char))) (qs : List String) (vT sAS wOk : Bool) :
    ((startAnalysis w0 a sc bc qs vT sAS wOk).storage.status = "completed" →
      (startAnalysis w0 a sc bc qs vT sAS wOk).storage.results ≠ none) ∧
    (w0.storage.results = none → wOk = false →
      (startAnalysis w0 a sc bc qs vT sAS wOk).storage.status = "error") := by
  constructor
  · rw [startAnalysis_storage]
    simp only [processAnalysis]
    exact finishAnalysis_completed _ _ _ _
  · intro h0 hw
    subst hw
    rw [startAnalysis_storage]
    simp only [processAnalysis]
    apply finishAnalysis_error_none
    rw [runVariant_storage_noWrite]
    simpa [updateAnalysisStatus] using h0

/-- Witness for C9: a successful concrete run that ends `completed`
has non-null results, and the same run with a results-dropping storage
ends in `error`. -/
theorem completed_only_with_results_witness :
    (startAnalysis exampleWorld exampleCognitive [['h', 'i']] [[['o', 'k']]] ["Q1"]
      false false true).storage.results ≠ none ∧
    (startAnalysis exampleWorld exampleCognitive [['h', 'i']] [[['o', 'k']]] ["Q1"]
      false false false).storage.status = "error" := by
  constructor
  · exact (completed_only_with_results exampleWorld exampleCognitive [['h', 'i']]
      [[['o', 'k']]] ["Q1"] false false true).1 (by decide)
  · exact (completed_only_with_results exampleWorld exampleCognitive [['h', 'i']]
      [[['o', 'k']]] ["Q1"] false false false).2 (by decide) rfl

/-- Claim C3: for every run that completes, at either access tier (the
tier is determined by the quantified owning user inside `w0`), the
persisted results carry the full untruncated accumulation of the
summary increments and, per batch, of that batch's increments — never
the truncated broadcast snapshots. -/
theorem full_fidelity_persistence (w0 : World) (a : Analysis) (sc : List (List Char))
    (bc : List (List (List Char))) (qs : List String) (vT : Bool)
    (hsc : sc ≠ []) (hbc : ∀ b ∈ bc, b ≠ []) (hact : streamActive w0 a.id = true) :
    (startAnalysis w0 a sc bc qs vT false true).storage.results =
      some (ResultsPayload.success sc.flatten (bc.map List.flatten) qs a.atype) ∧
    (startAnalysis w0 a sc bc qs vT false true).storage.status = "completed" := by
  rw [startAnalysis_storage]
  simp only [processAnalysis]
  have hact2 : streamActive (updateAnalysisStatus
      { w0 with storage :=
        { w0.storage with user := (resolveAccess w0.storage.user a.userId a.atype).2 } }
      "streaming") a.id = true := hact
  have hrv := runVariant_success a (resolveAccess w0.storage.user a.userId a.atype).1 vT
      (updateAnalysisStatus
        { w0 with storage :=
          { w0.storage with user := (resolveAccess w0.storage.user a.userId a.atype).2 } }
        "streaming")
      sc bc qs hsc hbc hact2
  rw [hrv.1]
  simp only [finishAnalysis]
  rw [if_neg (by simp [hrv.2])]
  constructor
  · simpa [broadcastToStream, updateAnalysisStatus] using hrv.2
  · simp [broadcastToStream, updateAnalysisStatus]

/-- Witness for C3: a concrete run at the 30% preview tier (anonymous
job) persists the full summary `"hi"` and the full batch response
`"ok"`. -/
theorem full_fidelity_persistence_witness :
    (startAnalysis exampleWorld exampleCognitive [['h', 'i']] [[['o', 'k']]] ["Q1"]
      false false true).storage.results =
      some (ResultsPayload.success ['h', 'i'] [['o', 'k']] ["Q1"] "cognitive") ∧
    (startAnalysis exampleWorld exampleCognitive [['h', 'i']] [[['o', 'k']]] ["Q1"]
      false false true).storage.status = "completed" := by
  have h := full_fidelity_persistence exampleWorld exampleCognitive [['h', 'i']]
    [[['o', 'k']]] ["Q1"] false (by decide) (by decide) (by decide)
  simpa using h

/-- Counterexample to claim C2 as stated: with a stop signaled after
the summary phase (so the channel is gone at the first batch
checkpoint), the status is not left as `streaming` and the results
field does not stay absent — the run ends with status `error` and an
error payload in results. -/
theorem stop_before_first_batch_counterexample :
    (startAnalysis exampleWorld exampleAnalysis [['h', 'i']] [[['o', 'k']]] []
      true true true).storage.status ≠ "streaming" ∧
    (startAnalysis exampleWorld exampleAnalysis [['h', 'i']] [[['o', 'k']]] []
      true true true).storage.results ≠ none := by
  decide

/-- Claim C2 (amended): when a user stop is signaled before batch 1
(the channel is inactive/absent at the first batch checkpoint), no
`raw_stream` or `batch_complete` event is ever delivered (every
delivered event is a `summary` event), but the run does not end as a
silent early return: the shared batch loop raises the stop as an
exception (and the plain cognitive variant's early return trips the
persistence verification), so the job's status is written to `error`
and its results field is overwritten with an error payload. -/
theorem stop_before_first_batch_amended (w0 : World) (a : Analysis) (sc : List (List Char))
    (bc : List (List (List Char))) (qs : List String) (vT : Bool)
    (hsc : sc ≠ []) (hbc : bc ≠ []) (hres0 : w0.storage.results = none)
    (hdel0 : w0.delivered = []) :
    (startAnalysis w0 a sc bc qs vT true true).storage.status = "error" ∧
    (∃ e, (startAnalysis w0 a sc bc qs vT true true).storage.results =
      some (ResultsPayload.failure e a.atype)) ∧
    ∀ p ∈ (startAnalysis w0 a sc bc qs vT true true).delivered,
      ∃ c, p.2 = StreamEvent.summary c := by
  have hrv := runVariant_stopped a (resolveAccess w0.storage.user a.userId a.atype).1 vT
      (updateAnalysisStatus
        { w0 with storage :=
          { w0.storage with user := (resolveAccess w0.storage.user a.userId a.atype).2 } }
        "streaming")
      sc bc qs hsc hbc
  have hpa : processAnalysis w0 a sc bc qs vT true true =
      finishAnalysis
        (stopAnalysis (streamSummary
          (updateAnalysisStatus
            { w0 with storage :=
              { w0.storage with user := (resolveAccess w0.storage.user a.userId a.atype).2 } }
            "streaming")
          a (resolveAccess w0.storage.user a.userId a.atype).1 sc).1 a.id)
        a (if vT then Except.error Err.stoppedByUser else Except.ok ()) true := by
    simp only [processAnalysis]
    rw [hrv]
  set W2 : World := updateAnalysisStatus
      { w0 with storage :=
        { w0.storage with user := (resolveAccess w0.storage.user a.userId a.atype).2 } }
      "streaming" with hW2def
  set SW : World := stopAnalysis
      (streamSummary W2 a (resolveAccess w0.storage.user a.userId a.atype).1 sc).1 a.id
      with hSWdef
  have hSWstreams : SW.streams a.id = none := stopAnalysis_streams_self _ _
  have hSWresults : SW.storage.results = none := by
    rw [hSWdef, stopAnalysis_storage,
      (streamSummary_preserves W2 a (resolveAccess w0.storage.user a.userId a.atype).1 sc).1]
    simpa [hW2def, updateAnalysisStatus] using hres0
  have hSWdel : ∀ p ∈ SW.delivered, ∃ c, p.2 = StreamEvent.summary c := by
    intro p hp
    rw [hSWdef, stopAnalysis_delivered] at hp
    rcases streamSummary_delivered W2 a (resolveAccess w0.storage.user a.userId a.atype).1
        sc p hp with h | h
    · rw [show W2.delivered = w0.delivered from rfl, hdel0] at h
      cases h
    · exact h
  obtain ⟨E, hfin⟩ : ∃ E, finishAnalysis SW a
      (if vT then Except.error Err.stoppedByUser else Except.ok ()) true =
      handleFailure SW a E true := by
    by_cases hv : vT = true
    · refine ⟨Err.stoppedByUser, ?_⟩
      rw [if_pos hv]
      rfl
    · refine ⟨Err.resultsNotSaved, ?_⟩
      rw [if_neg hv]
      simp only [finishAnalysis]
      rw [if_pos hSWresults]
  have hsa : startAnalysis w0 a sc bc qs vT true true =
      broadcastToStream (handleFailure SW a E true).1 a.id (StreamEvent.errorEvent E) := by
    unfold startAnalysis
    rw [hpa, hfin]
    simp [handleFailure_err]
  refine ⟨?_, ⟨E, ?_⟩, ?_⟩
  · rw [hsa, broadcastToStream_storage]
    exact handleFailure_status _ _ _ _
  · rw [hsa, broadcastToStream_storage]
    exact handleFailure_results_write _ _ _
  · rw [hsa]
    intro p hp
    rw [broadcastToStream_none _ _ _
      (by rw [handleFailure_streams]; exact hSWstreams)] at hp
    rw [handleFailure_delivered] at hp
    exact hSWdel p hp

/-- Witness for the amended C2 at a concrete run. -/
theorem stop_before_first_batch_amended_witness :
    (startAnalysis exampleWorld exampleAnalysis [['h', 'i']] [[['o', 'k']]] []
      true true true).storage.status = "error" ∧
    (∃ e, (startAnalysis exampleWorld exampleAnalysis [['h', 'i']] [[['o', 'k']]] []
      true true true).storage.results =
      some (ResultsPayload.failure e "comprehensive-cognitive")) ∧
    ∀ p ∈ (startAnalysis exampleWorld exampleAnalysis [['h', 'i']] [[['o', 'k']]] []
      true true true).delivered, ∃ c, p.2 = StreamEvent.summary c := by
  have h := stop_before_first_batch_amended exampleWorld exampleAnalysis [['h', 'i']]
    [[['o', 'k']]] [] true (by decide) (by decide) (by decide) (by decide)
  simpa using h

/-- Claim C4 (code bug): in a run that is stopped by the user, a
subscriber attached for the whole run observes zero terminal events —
not exactly one — because the `stopped` broadcast is gated off by the
already-cleared active flag and the subsequent `error` broadcast
happens after the registry entry was deleted.  In the concrete stopped
run below the subscriber did receive (non-terminal) events, yet the
count of terminal events among all deliveries is zero. -/
theorem stopped_run_has_no_terminal_event :
    ((startAnalysis exampleWorld exampleAnalysis [['h', 'i']] [[['o', 'k']]] []
      true true true).delivered.countP (fun p => isTerminalEvent p.2)) = 0 ∧
    (startAnalysis exampleWorld exampleAnalysis [['h', 'i']] [[['o', 'k']]] []
      true true true).delivered ≠ [] := by
  decide

end StreamingApp
